import Mathlib

/-!
# Verification of the telegraf-solaris configuration core

A shallow embedding, over `List Char` texts and exact integer/rational
arithmetic, of the configuration-ingestion layer of telegraf-solaris
(`config.go`, `output.go`, and the scalar value parser), together with the
Go standard-library routines (go1.8 era) that the code calls:
`bytes.Trim`, `bytes.TrimSpace`, `strings.Fields`, `strconv.ParseInt`,
`strconv.ParseBool`, `strconv.ParseFloat`, `strconv.Unquote`, and
`time.ParseDuration`.

Modelling conventions:
* Go byte strings are modelled as `List Char` (valid UTF-8 assumed; the
  suffix checks and token scans involved are ASCII-only).
* Machine integers are exact `Int` with explicit wrapping (`wrap64`) where
  Go multiplication can overflow, and with the exact overflow guards that
  the Go sources perform.
* `float64` values are abstracted as exact rationals: `goParseFloat`
  returns the exact decimal value of the literal, and fractional-duration
  contributions are computed by exact truncated division.  Go rounds these
  through `float64`; the two agree on every input considered here.
* Fallible calls return `Option`; `none` is a non-nil Go error.
-/

/-- The NUL character, written out once. -/
def nulChar : Char := Char.ofNat 0

/-- The single-quote character (byte 39), written via its code point. -/
def squote : Char := Char.ofNat 39

/-- The backslash character. -/
def bslash : Char := Char.ofNat 92

/-- The double-quote character. -/
def dquote : Char := Char.ofNat 34

/-- The backtick character. -/
def btick : Char := Char.ofNat 96

/-- The dollar character starting an environment-variable token. -/
def dollar : Char := '$'

/-- Convenience: the character list of a string literal. -/
def strChars (s : String) : List Char := s.data

/-- Go `unicode.IsSpace` (Unicode 9.0 White_Space property, as shipped with
go1.8): the characters trimmed by `bytes.TrimSpace` and split on by
`strings.Fields`. -/
def isGoSpace (c : Char) : Bool :=
  c = ' ' || c = '\t' || c = '\n' || c = Char.ofNat 11 || c = Char.ofNat 12 ||
  c = '\r' || c = Char.ofNat 0x85 || c = Char.ofNat 0xA0 ||
  c = Char.ofNat 0x1680 ||
  (0x2000 ≤ c.toNat && c.toNat ≤ 0x200A) ||
  c = Char.ofNat 0x2028 || c = Char.ofNat 0x2029 || c = Char.ofNat 0x202F ||
  c = Char.ofNat 0x205F || c = Char.ofNat 0x3000

/-- Trim, from both ends, the characters satisfying `p`
(`bytes.TrimFunc`). -/
def goTrimFunc (l : List Char) (p : Char → Bool) : List Char :=
  ((l.dropWhile p).reverse.dropWhile p).reverse

/-- Go `bytes.Trim l cutset`: trim from both ends every character contained in
`cutset`. -/
def goTrim (l : List Char) (cutset : List Char) : List Char :=
  goTrimFunc l (fun c => decide (c ∈ cutset))

/-- Go `bytes.TrimSpace`. -/
def goTrimSpace (l : List Char) : List Char :=
  goTrimFunc l isGoSpace

/-- Accumulator loop of `strings.Fields`: `cur` holds the characters of the
current token, reversed. -/
def goFieldsAux : List Char → List Char → List (List Char)
  | [], cur => if cur = [] then [] else [cur.reverse]
  | c :: rest, cur =>
    if isGoSpace c then
      if cur = [] then goFieldsAux rest []
      else cur.reverse :: goFieldsAux rest []
    else goFieldsAux rest (c :: cur)

/-- Go `strings.Fields`: split around runs of white space. -/
def goFields (l : List Char) : List (List Char) :=
  goFieldsAux l []

/-- Decimal digit run accumulator shared by the integer parsers: reads
leading digits exactly. -/
def digitsToNat : List Char → Nat → Option Nat
  | [], acc => some acc
  | c :: rest, acc =>
    if c.isDigit then digitsToNat rest (acc * 10 + (c.toNat - 48))
    else none

/-- Go `strconv.ParseInt(s, 10, 64)` (also `strconv.Atoi` on a 64-bit
platform): optional sign, a non-empty run of decimal digits, and an
`int64` range check; any violation is an error (`none`). -/
def goParseInt (s : List Char) : Option Int :=
  match s with
  | [] => none
  | c :: rest =>
    let (neg, digits) :=
      if c = '-' then (true, rest)
      else if c = '+' then (false, rest)
      else (false, c :: rest)
    if digits = [] then none
    else
      match digitsToNat digits 0 with
      | none => none
      | some n =>
        let v : Int := if neg then -(n : Int) else (n : Int)
        if v < -9223372036854775808 ∨ 9223372036854775807 < v then none
        else some v

/-- Go `strconv.ParseBool`. -/
def goParseBool (s : List Char) : Option Bool :=
  if s = strChars "1" ∨ s = strChars "t" ∨ s = strChars "T" ∨
     s = strChars "true" ∨ s = strChars "TRUE" ∨ s = strChars "True" then
    some true
  else if s = strChars "0" ∨ s = strChars "f" ∨ s = strChars "F" ∨
          s = strChars "false" ∨ s = strChars "FALSE" ∨ s = strChars "False" then
    some false
  else none

/-- A `float64` result of `strconv.ParseFloat`, with the numeric value kept
as an exact rational (see the header note). -/
inductive GoFloat where
  | finite (q : ℚ)
  | inf (negSign : Bool)
  | nan
deriving DecidableEq

/-- Case-insensitive comparison of ASCII letters, used by the
`inf`/`nan` special cases of `strconv.ParseFloat`. -/
def eqIgnoreCase (s t : List Char) : Bool :=
  s.length = t.length &&
    (List.zip s t).all fun p => p.1.toLower = p.2.toLower

/-- Mantissa scan of go1.8 `readFloat`: consumes digits with at most one
dot, returning the exact value scaled as `mant * 10 ^ dp10`, whether any
digit was seen, and the rest of the input. `dp` counts digits before the
dot minus digits consumed, as in the Go source, but here the exact decimal
is tracked directly: `mant` accumulates all digits and `frac` counts
digits after the dot. -/
def readMantissa : List Char → Bool → Bool → Nat → Nat →
    (Bool × Nat × Nat × List Char)
  | [], sawdigits, _, mant, frac => (sawdigits, mant, frac, [])
  | c :: rest, sawdigits, sawdot, mant, frac =>
    if c = '.' then
      if sawdot then (sawdigits, mant, frac, c :: rest)
      else readMantissa rest sawdigits true mant frac
    else if c.isDigit then
      readMantissa rest true sawdot (mant * 10 + (c.toNat - 48))
        (if sawdot then frac + 1 else frac)
    else (sawdigits, mant, frac, c :: rest)

/-- Exponent scan of go1.8 `readFloat`: `e`/`E`, an optional sign, and a
non-empty digit run; anything else is a syntax error signalled by
returning `none`. Returns the signed exponent and the rest. -/
def readExponent : List Char → Option (Int × List Char)
  | [] => none
  | c :: rest =>
    let (esign, digits) : Int × List Char :=
      if c = '+' then (1, rest)
      else if c = '-' then (-1, rest)
      else (1, c :: rest)
    match digits with
    | [] => none
    | d :: _ =>
      if d.isDigit then
        match digitsToNat (digits.takeWhile Char.isDigit) 0 with
        | none => none
        | some e => some (esign * (e : Int), digits.dropWhile Char.isDigit)
      else none

/-- Value of a parsed decimal, `mant / 10 ^ frac * 10 ^ exp`, written with
the core `Rat.divInt` and `Nat.pow` so that it evaluates by kernel
reduction. -/
def decimalValue (mant : Nat) (frac : Nat) (exp : Int) : ℚ :=
  if 0 ≤ exp - (frac : Int) then
    Rat.divInt (Int.ofNat mant * Int.ofNat (Nat.pow 10 (exp - (frac : Int)).toNat)) 1
  else
    Rat.divInt (Int.ofNat mant) (Int.ofNat (Nat.pow 10 ((frac : Int) - exp).toNat))

/-- The smallest positive decimal that `float64` rounds up to `+Inf`
(`2 ^ 1024 - 2 ^ 970`, the round-to-nearest-even boundary): at or above
it, go1.8 `strconv.ParseFloat` reports `ErrRange`. -/
def float64OverflowBound : ℚ :=
  Rat.divInt (Int.ofNat (Nat.pow 2 1024 - Nat.pow 2 970)) 1

/-- go1.8 `strconv.ParseFloat(s, 64)` restricted to a nil error:
the `inf`/`nan` specials, else `[sign] digits [. digits] [(e|E) [sign]
digits]` with at least one mantissa digit and nothing left over; a value
that overflows `float64` is an `ErrRange` error, hence `none`.  The value
is the exact decimal (header note). -/
def goParseFloat (s : List Char) : Option GoFloat :=
  if eqIgnoreCase s (strChars "nan") then some .nan
  else if eqIgnoreCase s (strChars "inf") ∨ eqIgnoreCase s (strChars "infinity") ∨
          eqIgnoreCase s (strChars "+inf") ∨ eqIgnoreCase s (strChars "+infinity") then
    some (.inf false)
  else if eqIgnoreCase s (strChars "-inf") ∨ eqIgnoreCase s (strChars "-infinity") then
    some (.inf true)
  else
    match s with
    | [] => none
    | c :: rest =>
      let (neg, body) :=
        if c = '-' then (true, rest)
        else if c = '+' then (false, rest)
        else (false, c :: rest)
      match readMantissa body false false 0 0 with
      | (false, _, _, _) => none
      | (true, mant, frac, after) =>
        let withExp : Option (Int × List Char) :=
          match after with
          | [] => some (0, [])
          | e :: rest2 =>
            if e = 'e' ∨ e = 'E' then readExponent rest2
            else some (0, e :: rest2)
        match withExp with
        | none => none
        | some (exp, tail) =>
          if tail ≠ [] then none
          else
            let q := decimalValue mant frac exp
            if float64OverflowBound ≤ q then none
            else some (.finite (if neg then -q else q))

/-- Hex digit value, as in `strconv.UnquoteChar`. -/
def unhex (c : Char) : Option Nat :=
  if c.isDigit then some (c.toNat - 48)
  else if 'a' ≤ c ∧ c ≤ 'f' then some (c.toNat - 87)
  else if 'A' ≤ c ∧ c ≤ 'F' then some (c.toNat - 55)
  else none

/-- Octal digit test. -/
def isOctal (c : Char) : Bool := '0' ≤ c && c ≤ '7'

/-- Read `n` hex digits into a value. -/
def readHex : Nat → List Char → Nat → Option (Nat × List Char)
  | 0, rest, acc => some (acc, rest)
  | _ + 1, [], _ => none
  | n + 1, c :: rest, acc =>
    match unhex c with
    | none => none
    | some d => readHex n rest (acc * 16 + d)

/-- go1.8 `strconv.UnquoteChar`: decode one character (possibly an escape
sequence) of the interior of a quoted literal, returning it with the rest
of the input, or `none` for a syntax error. -/
def unquoteChar (quote : Char) (s : List Char) : Option (Char × List Char) :=
  match s with
  | [] => none
  | c :: rest =>
    if c = quote ∧ (quote = squote ∨ quote = dquote) then none
    else if c ≠ bslash then some (c, rest)
    else
      match rest with
      | [] => none
      | e :: rest2 =>
        if e = 'a' then some (Char.ofNat 7, rest2)
        else if e = 'b' then some (Char.ofNat 8, rest2)
        else if e = 'f' then some (Char.ofNat 12, rest2)
        else if e = 'n' then some ('\n', rest2)
        else if e = 'r' then some ('\r', rest2)
        else if e = 't' then some ('\t', rest2)
        else if e = 'v' then some (Char.ofNat 11, rest2)
        else if e = 'x' then
          match readHex 2 rest2 0 with
          | none => none
          | some (v, rest3) => some (Char.ofNat v, rest3)
        else if e = 'u' then
          match readHex 4 rest2 0 with
          | none => none
          | some (v, rest3) =>
            if 0xD800 ≤ v ∧ v < 0xE000 then none
            else some (Char.ofNat v, rest3)
        else if e = 'U' then
          match readHex 8 rest2 0 with
          | none => none
          | some (v, rest3) =>
            if (0xD800 ≤ v ∧ v < 0xE000) ∨ 0x10FFFF < v then none
            else some (Char.ofNat v, rest3)
        else if isOctal e then
          match rest2 with
          | d1 :: d2 :: rest3 =>
            if isOctal d1 ∧ isOctal d2 then
              let v := (e.toNat - 48) * 64 + (d1.toNat - 48) * 8 + (d2.toNat - 48)
              if 255 < v then none else some (Char.ofNat v, rest3)
            else none
          | _ => none
        else if e = bslash then some (bslash, rest2)
        else if e = squote ∨ e = dquote then
          if e = quote then some (e, rest2) else none
        else none

/-- Interior loop of go1.8 `strconv.Unquote`: decode the whole interior;
a single-quoted literal must contain exactly one character. Each step
consumes at least one character, so the input length bounds the fuel. -/
def unquoteLoop (quote : Char) : Nat → List Char → Option (List Char)
  | _, [] => some []
  | 0, _ :: _ => none
  | fuel + 1, c :: rest =>
    match unquoteChar quote (c :: rest) with
    | none => none
    | some (ch, rest2) =>
      if quote = squote ∧ rest2 ≠ [] then none
      else
        match unquoteLoop quote fuel rest2 with
        | none => none
        | some out => some (ch :: out)

/-- go1.8 `strconv.Unquote`: strip matching backticks, double quotes or
single quotes and decode the interior; `none` is `ErrSyntax`. -/
def goUnquote (s : List Char) : Option (List Char) :=
  match s with
  | [] => none
  | [_] => none
  | c :: c2 :: cs =>
    let body := c2 :: cs
    match body.getLast? with
    | none => none
    | some lastc =>
      if lastc ≠ c then none
      else
        let inner := body.dropLast
        if c = btick then
          if btick ∈ inner then none else some inner
        else if c ≠ dquote ∧ c ≠ squote then none
        else if '\n' ∈ inner then none
        else
          match unquoteLoop c (inner.length + 1) inner with
          | none => none
          | some out =>
            if c = squote ∧ out.length ≠ 1 then none else some out

/-- The `leadingInt` helper of go1.8 `time.ParseDuration`: consume leading decimal
digits into an `int64`, with the Go overflow guards made exact (`none` is
`errLeadingInt`). -/
def durLeadingInt : Int → List Char → Option (Int × List Char)
  | x, [] => some (x, [])
  | x, c :: rest =>
    if c.isDigit then
      if 922337203685477580 < x then none
      else
        let y := x * 10 + ((c.toNat : Int) - 48)
        if 9223372036854775808 ≤ y then none
        else durLeadingInt y rest
    else some (x, c :: rest)

/-- The `leadingFraction` helper of go1.8 `time.ParseDuration`: consume the digits
after the dot, saturating silently on overflow; returns the digits' value,
the power-of-ten scale, and the rest. -/
def durLeadingFraction : Int → Int → Bool → List Char →
    (Int × Int × List Char)
  | x, scale, _, [] => (x, scale, [])
  | x, scale, overflow, c :: rest =>
    if c.isDigit then
      if overflow then durLeadingFraction x scale true rest
      else if 922337203685477580 < x then durLeadingFraction x scale true rest
      else
        let y := x * 10 + ((c.toNat : Int) - 48)
        if 9223372036854775808 ≤ y then durLeadingFraction x scale true rest
        else durLeadingFraction y (scale * 10) false rest
    else (x, scale, c :: rest)

/-- The unit table of `time.ParseDuration`, in nanoseconds
(`ns`, `us`, `µs` U+00B5, `μs` U+03BC, `ms`, `s`, `m`, `h`). -/
def durUnitNanos (u : List Char) : Option Int :=
  if u = strChars "ns" then some 1
  else if u = strChars "us" then some 1000
  else if u = strChars "µs" then some 1000
  else if u = strChars "μs" then some 1000
  else if u = strChars "ms" then some 1000000
  else if u = strChars "s" then some 1000000000
  else if u = strChars "m" then some 60000000000
  else if u = strChars "h" then some 3600000000000
  else none

/-- A character at which a duration unit ends (the Go scan stops a unit at
a digit or a dot). -/
def durUnitChar (c : Char) : Bool := !(c = '.' || c.isDigit)

/-- The term loop of go1.8 `time.ParseDuration`: scan
`(digits [. digits] unit)+`, accumulating nanoseconds in `d` with the Go
overflow guards made exact.  Each iteration consumes at least one
character, so the input length bounds the fuel; the fractional
contribution `f * unit / scale` is exact truncated division where Go goes
through `float64` (header note). -/
def durLoop : Nat → Int → List Char → Option Int
  | 0, _, _ => none
  | _ + 1, d, [] => some d
  | fuel + 1, d, c :: rest =>
    if ¬(c = '.' ∨ c.isDigit) then none
    else
      match durLeadingInt 0 (c :: rest) with
      | none => none
      | some (v, s1) =>
        let pre := s1.length ≠ (c :: rest).length
        let afterFrac : Bool × Int × Int × List Char :=
          match s1 with
          | d0 :: s1' =>
            if d0 = '.' then
              let (f, scale, s2) := durLeadingFraction 0 1 false s1'
              (s2.length ≠ s1'.length, f, scale, s2)
            else (false, 0, 1, s1)
          | [] => (false, 0, 1, s1)
        match afterFrac with
        | (post, f, scale, s2) =>
          if ¬pre ∧ ¬post then none
          else
            let u := s2.takeWhile durUnitChar
            let s3 := s2.dropWhile durUnitChar
            if u = [] then none
            else
              match durUnitNanos u with
              | none => none
              | some unit =>
                if 9223372036854775807 / unit < v then none
                else
                  let v1 := v * unit
                  let v2 := if 0 < f then v1 + (f * unit) / scale else v1
                  if 9223372036854775808 ≤ v2 then none
                  else
                    let d' := d + v2
                    if 9223372036854775808 ≤ d' then none
                    else durLoop fuel d' s3

/-- go1.8 `time.ParseDuration`: optional sign, the `"0"` special case,
then the term loop; the result is in nanoseconds and `none` is a non-nil
error. -/
def goParseDuration (s0 : List Char) : Option Int :=
  let (neg, s) : Bool × List Char :=
    match s0 with
    | c :: rest =>
      if c = '-' then (true, rest)
      else if c = '+' then (false, rest)
      else (false, c :: rest)
    | [] => (false, [])
  if s = strChars "0" then some 0
  else if s = [] then none
  else
    match durLoop (s.length + 1) 0 s with
    | none => none
    | some d => some (if neg then -d else d)

/-- The `\w` class of Go's `regexp` (ASCII word character), the character class of
the token pattern `envVarRe = \$\w+` in config.go. -/
def isWordChar (c : Char) : Bool := c.isAlphanum || c = '_'

/-- Whether a list starts with a word character. -/
def headIsWord : List Char → Bool
  | [] => false
  | c :: _ => isWordChar c

/-- Left-to-right scanner equivalent to `envVarRe.FindAll contents -1`
for the pattern `\$\w+` (leftmost, non-overlapping, maximal matches).
The second argument is `some acc` when a `$` has been seen and `acc` holds
the word characters read since, reversed. -/
def scanTokens : Option (List Char) → List Char → List (List Char)
  | none, [] => []
  | some acc, [] => if acc = [] then [] else [dollar :: acc.reverse]
  | none, c :: rest =>
    if c = dollar then scanTokens (some []) rest else scanTokens none rest
  | some acc, c :: rest =>
    if isWordChar c then scanTokens (some (c :: acc)) rest
    else if acc = [] then
      scanTokens (if c = dollar then some [] else none) rest
    else
      (dollar :: acc.reverse) ::
        scanTokens (if c = dollar then some [] else none) rest

/-- The call `envVarRe.FindAll contents -1` in `parseFile`. -/
def findAllTokens (contents : List Char) : List (List Char) :=
  scanTokens none contents

/-- Go `bytes.Replace s old new 1`: replace the first occurrence of `old`
(an empty `old` inserts at the start, as in Go). -/
def replaceFirst : List Char → List Char → List Char → List Char
  | [], old, new => if old.isPrefixOf [] then new else []
  | c :: rest, old, new =>
    if old.isPrefixOf (c :: rest) then new ++ (c :: rest).drop old.length
    else c :: replaceFirst rest old new

/-- The `envVarEscaper` of config.go: escape `"` and `\` for embedding in a
TOML string (a `strings.Replacer` over single characters acts
character-wise). -/
def escapeChar (c : Char) : List Char :=
  if c = dquote then [bslash, dquote]
  else if c = bslash then [bslash, bslash]
  else [c]

/-- The `escapeEnv` function of config.go. -/
def escapeEnv (value : List Char) : List Char :=
  value.flatMap escapeChar

/-- Go `strings.TrimPrefix tok "$"`. -/
def trimDollar : List Char → List Char
  | [] => []
  | c :: rest => if c = dollar then rest else c :: rest

/-- One iteration of the substitution loop of `parseFile`: look the token's
environment variable up and, when set, replace the first remaining
occurrence of the token with the escaped value. -/
def substStep (env : List Char → Option (List Char)) (acc tok : List Char) :
    List Char :=
  match env (trimDollar tok) with
  | some v => replaceFirst acc tok (escapeEnv v)
  | none => acc

/-- The environment-variable substitution phase of `parseFile`
(config.go lines 407-414), applied to the file contents after BOM
stripping; reading the file and the TOML parse on the result are the
I/O boundary around this pure phase. -/
def substPhase (env : List Char → Option (List Char)) (contents : List Char) :
    List Char :=
  (findAllTokens contents).foldl (substStep env) contents

/-- The substitution a token receives: a set variable's escaped value, an
unset variable's token verbatim. -/
def resolveTok (env : List Char → Option (List Char)) (t : List Char) :
    List Char :=
  match env (trimDollar t) with
  | some v => escapeEnv v
  | none => t

/-- A text presented as alternating tokens and separators (the separator
before the first token is handled apart): its rendering. -/
def renderParts (parts : List (List Char × List Char)) : List Char :=
  parts.flatMap fun p => p.1 ++ p.2

/-- The same text with every token replaced by its substitution. -/
def renderResolved (env : List Char → Option (List Char))
    (parts : List (List Char × List Char)) : List Char :=
  parts.flatMap fun p => resolveTok env p.1 ++ p.2

/-- A well-formed `$`-token: a dollar sign followed by a non-empty run of
word characters. -/
def isTokenShape : List Char → Bool
  | [] => false
  | c :: w => c = dollar && !w.isEmpty && w.all isWordChar

/-- Whether the pattern occurs starting at any position strictly inside
`P` (the occurrence may extend into `tail`), as a decidable scan. -/
def noTokenStartIn : List Char → List Char → List Char → Bool
  | [], _, _ => true
  | c :: P, pat, tail =>
    !(pat.isPrefixOf (c :: (P ++ tail))) && noTokenStartIn P pat tail


/-- Modelled from the spec: the Input capability interface (a data-source
plugin; only declared by callers in the shown sources, its definition is
outside src/). The registry never inspects an instance, so only the
introspection surface is carried. -/
structure Input where
  description : List Char
  sampleConfig : List Char

/-- The Output capability interface of output.go; the effectful methods
(`Connect`, `Close`, `Write`) are opaque to the registry and omitted from
the value model. -/
structure Output where
  description : List Char
  sampleConfig : List Char

/-- The `InputCreator` type: a zero-argument input factory. -/
def InputCreator : Type := Unit → Input

/-- The `OutputCreator` type: a zero-argument output factory. -/
def OutputCreator : Type := Unit → Output

/-- The `Inputs` registry, a Go map modelled as a lookup function. -/
def InputsMap : Type := List Char → Option InputCreator

/-- The `Outputs` registry. -/
def OutputsMap : Type := List Char → Option OutputCreator

/-- The `AddInput` function of config.go: `Inputs[name] = creator`. -/
def addInput (m : InputsMap) (name : List Char) (creator : InputCreator) :
    InputsMap :=
  fun n => if n = name then some creator else m n

/-- The `AddOutput` function of config.go: `Outputs[name] = creator`. -/
def addOutput (m : OutputsMap) (name : List Char) (creator : OutputCreator) :
    OutputsMap :=
  fun n => if n = name then some creator else m n

/-- A sequence of input registrations applied in order. -/
def registerInputs (m : InputsMap) (regs : List (List Char × InputCreator)) :
    InputsMap :=
  regs.foldl (fun acc r => addInput acc r.1 r.2) m

/-- A sequence of output registrations applied in order. -/
def registerOutputs (m : OutputsMap) (regs : List (List Char × OutputCreator)) :
    OutputsMap :=
  regs.foldl (fun acc r => addOutput acc r.1 r.2) m

/-- Lexicographic (byte-wise, hence code-point-wise) order on strings, the
order of Go's `sort.Strings`. -/
def lexLe : List Char → List Char → Bool
  | [], _ => true
  | _ :: _, [] => false
  | a :: as_, b :: bs =>
    if a < b then true
    else if a = b then lexLe as_ bs
    else false

/-- The relation form of `lexLe`, for the sorting lemmas. -/
def LexLeP (a b : List Char) : Prop := lexLe a b = true

instance : DecidableRel LexLeP := fun a b => by
  unfold LexLeP; infer_instance

/-- Totality of the byte-wise string order. -/
instance : IsTotal (List Char) LexLeP where
  total a b := by
    show lexLe a b = true ∨ lexLe b a = true
    induction a generalizing b with
    | nil => left; rfl
    | cons x xs ih =>
      cases b with
      | nil => right; rfl
      | cons y ys =>
        rcases lt_trichotomy x y with h | h | h
        · left; unfold lexLe; rw [if_pos h]
        · subst h
          rcases ih ys with h2 | h2
          · left; unfold lexLe; rw [if_neg (lt_irrefl x), if_pos rfl]; exact h2
          · right; unfold lexLe; rw [if_neg (lt_irrefl x), if_pos rfl]; exact h2
        · right; unfold lexLe; rw [if_pos h]

/-- Transitivity of the byte-wise string order. -/
instance : IsTrans (List Char) LexLeP where
  trans a b c hab0 hbc0 := by
    show lexLe a c = true
    have hab : lexLe a b = true := hab0
    have hbc : lexLe b c = true := hbc0
    clear hab0 hbc0
    induction a generalizing b c with
    | nil => rfl
    | cons x xs ih =>
      cases b with
      | nil => exact absurd hab (by simp [lexLe])
      | cons y ys =>
        cases c with
        | nil => exact absurd hbc (by simp [lexLe])
        | cons z zs =>
          unfold lexLe at hab hbc ⊢
          by_cases hxy : x < y
          · by_cases hyz : y < z
            · rw [if_pos (lt_trans hxy hyz)]
            · rw [if_neg hyz] at hbc
              by_cases hyz2 : y = z
              · subst hyz2; rw [if_pos hxy]
              · rw [if_neg hyz2] at hbc; cases hbc
          · rw [if_neg hxy] at hab
            by_cases hxy2 : x = y
            · subst hxy2
              rw [if_pos rfl] at hab
              by_cases hxz : x < z
              · rw [if_pos hxz]
              · rw [if_neg hxz]
                by_cases hxz2 : x = z
                · rw [if_pos hxz2]
                  rw [if_neg hxz, if_pos hxz2] at hbc
                  exact ih ys zs hab hbc
                · rw [if_neg hxz, if_neg hxz2] at hbc; cases hbc
            · rw [if_neg hxy2] at hab; cases hab

/-- Antisymmetry of the byte-wise string order. -/
instance : IsAntisymm (List Char) LexLeP where
  antisymm a b hab0 hba0 := by
    have hab : lexLe a b = true := hab0
    have hba : lexLe b a = true := hba0
    clear hab0 hba0
    induction a generalizing b with
    | nil =>
      cases b with
      | nil => rfl
      | cons y ys => exact absurd hba (by simp [lexLe])
    | cons x xs ih =>
      cases b with
      | nil => exact absurd hab (by simp [lexLe])
      | cons y ys =>
        unfold lexLe at hab hba
        by_cases hxy : x < y
        · rw [if_pos hxy] at hab
          by_cases hyx : y < x
          · exact absurd hyx (lt_asymm hxy)
          · rw [if_neg hyx] at hba
            by_cases hyx2 : y = x
            · exact absurd hyx2.symm (ne_of_lt hxy)
            · rw [if_neg hyx2] at hba; cases hba
        · rw [if_neg hxy] at hab
          by_cases hxy2 : x = y
          · subst hxy2
            rw [if_pos rfl] at hab
            rw [if_neg hxy, if_pos rfl] at hba
            rw [ih ys hab hba]
          · rw [if_neg hxy2] at hab; cases hab

/-- The `Config.ListTags` method: format every tag as `key=value`, sort the formatted
strings (`sort.Strings`), and join them with single spaces.  The tag map
is given as its list of entries; Go's map iteration order is arbitrary,
which the determinism theorem below accounts for. -/
def listTags (tags : List (List Char × List Char)) : List Char :=
  List.intercalate (strChars " ")
    (((tags.map fun kv => kv.1 ++ strChars "=" ++ kv.2)).insertionSort LexLeP)

/-- Modelled from the spec's words, for comparison with `listTags`: the
serialization the spec describes, "space-separated key=value pairs sorted
by key". -/
def listTagsKeySortedSpec (tags : List (List Char × List Char)) : List Char :=
  List.intercalate (strChars " ")
    ((tags.insertionSort fun a b => LexLeP a.1 b.1).map
      fun kv => kv.1 ++ strChars "=" ++ kv.2)

/-- The `time.Duration` wrapper of config.go (nanoseconds). -/
structure Duration where
  duration : Int
deriving DecidableEq

/-- Two's-complement wrap of Go `int64` arithmetic. -/
def wrap64 (n : Int) : Int :=
  (n + 9223372036854775808) % 18446744073709551616 - 9223372036854775808

/-- Truncation toward zero of an exact rational, the effect of Go's
`int64(f)` conversion on an in-range `float64`; out-of-range, `Inf` and
`NaN` conversions are implementation-defined in Go (amd64 yields the
minimum `int64`), modelled by that sentinel. -/
def floatToInt64 : GoFloat → Int
  | .finite q =>
    let t := q.num / (q.den : Int)
    if t < -9223372036854775808 ∨ 9223372036854775807 < t then
      -9223372036854775808
    else t
  | .inf _ => -9223372036854775808
  | .nan => -9223372036854775808

set_option linter.unusedVariables false in
/-- The `Duration.UnmarshalTOML` method of config.go.  The result is the struct after
the call paired with the returned error.  Mirrors the Go control flow
exactly: the single-quote trim; `time.ParseDuration`, whose *failure
already stores its zero result* through the multiple assignment
`d.Duration, err = ...`; the unquote-and-retry step; the integer-seconds
and float-seconds fallbacks (`time.Second * time.Duration x` with `int64`
wrap); and the final `return nil` that reports no error on every path. -/
def Duration.unmarshalTOML (d : Duration) (b0 : List Char) :
    Duration × Option (List Char) :=
  let b := goTrim b0 [squote]
  match goParseDuration b with
  | some v => (⟨v⟩, none)
  | none =>
    -- `d.Duration, err = time.ParseDuration(string(b))` zeroed the field.
    let afterIntFloat : Int :=
      match goParseInt b with
      | some sI => wrap64 (1000000000 * sI)
      | none =>
        match goParseFloat b with
        | some sF => wrap64 (1000000000 * floatToInt64 sF)
        | none => 0
    match goUnquote b with
    | some uq =>
      if 0 < uq.length then
        match goParseDuration uq with
        | some v => (⟨v⟩, none)
        | none => (⟨afterIntFloat⟩, none)
      else (⟨afterIntFloat⟩, none)
    | none => (⟨afterIntFloat⟩, none)

/-- The part of `os.FileInfo` that `LoadDirectory`'s walk function reads. -/
structure FileInfo where
  name : List Char
  isDir : Bool
deriving DecidableEq

/-- One callback of `filepath.Walk`: the visited path and its `FileInfo`,
`none` when the walk could not stat the entry (the `info == nil`
permission case). -/
structure WalkEntry where
  path : List Char
  info : Option FileInfo
deriving DecidableEq

/-- The filter of `LoadDirectory`'s walk function on a file name:
`len(name) >= 6 && name[len(name)-5:] == ".conf"` (the Go code skips on
`len(name) < 6 || name[len(name)-5:] != ".conf"`). -/
def confNameOK (name : List Char) : Bool :=
  decide (6 ≤ name.length) &&
    decide (name.drop (name.length - 5) = strChars ".conf")

/-- Whether the walk function hands an entry to `LoadConfig`: a stat-able,
non-directory entry whose name passes `confNameOK`. -/
def shouldLoad (e : WalkEntry) : Bool :=
  match e.info with
  | none => false
  | some info => !info.isDir && confNameOK info.name

/-- The `Config.LoadDirectory` walk over the sequence of entries that
`filepath.Walk` visits, in traversal order.  `loadErr` gives the result of
`c.LoadConfig` on each path (`none` = success); file-system reading inside
`LoadConfig` is the I/O boundary.  Returns the paths passed to
`LoadConfig`, in order, and the error that aborted the walk, if any:
a `nil` info is skipped with a warning, directories and non-matching
names are skipped, and a `LoadConfig` error stops the walk. -/
def loadDirectory (loadErr : List Char → Option (List Char)) :
    List WalkEntry → List (List Char) × Option (List Char)
  | [] => ([], none)
  | e :: rest =>
    match e.info with
    | none => loadDirectory loadErr rest
    | some info =>
      if info.isDir then loadDirectory loadErr rest
      else if confNameOK info.name then
        match loadErr e.path with
        | some err => ([e.path], some err)
        | none =>
          let r := loadDirectory loadErr rest
          (e.path :: r.1, r.2)
      else loadDirectory loadErr rest

/-- A dynamically-typed Go `interface` value as stored in a metric field
by the value parser; `nil` is the zero interface value. -/
inductive GoValue where
  | int (n : Int)
  | float (f : GoFloat)
  | str (s : List Char)
  | bool (b : Bool)
  | nil
deriving DecidableEq

/-- A metric, as far as the value parser constructs one. -/
structure Metric where
  name : List Char
  tags : List (List Char × List Char)
  fields : List (List Char × GoValue)
  time : Int
deriving DecidableEq

/-- Modelled from the spec: the metric constructor `New` (package
`metric`, not under src/) — "construct one metric with a single field
named `value`, the supplied default tags, and the current wall-clock
timestamp"; the spec gives it no failure case. -/
def metricNew (name : List Char) (tags : List (List Char × List Char))
    (fields : List (List Char × GoValue)) (time : Int) :
    Except (List Char) Metric :=
  .ok ⟨name, tags, fields, time⟩

/-- The `ValueParser` struct of the value data-format parser. -/
structure ValueParser where
  metricName : List Char
  dataType : List Char
  defaultTags : List (List Char × List Char)

/-- The type-hint dispatch of `ValueParser.Parse`: Go's `switch` over the
declared data type, with no `default` branch, so an unrecognized type
leaves `value` at the `nil` interface value and `err` at `nil`. -/
def convertToken (dataType vStr : List Char) : Except (List Char) GoValue :=
  if dataType = strChars "" ∨ dataType = strChars "int" ∨
     dataType = strChars "integer" then
    match goParseInt vStr with
    | some n => .ok (.int n)
    | none => .error (strChars "invalid syntax")
  else if dataType = strChars "float" ∨ dataType = strChars "long" then
    match goParseFloat vStr with
    | some f => .ok (.float f)
    | none => .error (strChars "invalid syntax")
  else if dataType = strChars "str" ∨ dataType = strChars "string" then
    .ok (.str vStr)
  else if dataType = strChars "bool" ∨ dataType = strChars "boolean" then
    match goParseBool vStr with
    | some b => .ok (.bool b)
    | none => .error (strChars "invalid syntax")
  else
    .ok .nil

/-- The `ValueParser.Parse` method: trim NUL bytes and whitespace; unless the type is
(exactly) `"string"`, split into fields and keep only the last token,
returning an empty metric list when no token remains; convert the token
per the declared type; build one metric with the single field `value`.
`now` stands for the `time.Now().UTC()` capture. -/
def ValueParser.Parse (v : ValueParser) (now : Int) (buf : List Char) :
    Except (List Char) (List Metric) :=
  let vStr0 := goTrimSpace (goTrim buf [nulChar])
  let tok : Option (List Char) :=
    if v.dataType ≠ strChars "string" then
      match (goFields vStr0).getLast? with
      | none => none
      | some last => some last
    else some vStr0
  match tok with
  | none => .ok []
  | some vStr =>
    match convertToken v.dataType vStr with
    | .error e => .error e
    | .ok value =>
      match metricNew v.metricName v.defaultTags [(strChars "value", value)] now with
      | .error e => .error e
      | .ok m => .ok [m]

deriving instance DecidableEq for Except

/-- C5: `Duration.UnmarshalTOML` on `"1h30m"` returns no error and sets
the duration to exactly 90 minutes (5 400 000 000 000 ns), and on `"45"`
— which the duration-literal step rejects (`goParseDuration` fails for
lack of a unit) — returns no error and sets 45 whole seconds through the
base-10 integer fallback (`goParseInt` accepts it). -/
theorem c5_duration_examples (d : Duration) :
    Duration.unmarshalTOML d (strChars "1h30m") = (⟨5400000000000⟩, none) ∧
    goParseDuration (strChars "45") = none ∧
    goParseInt (strChars "45") = some 45 ∧
    Duration.unmarshalTOML d (strChars "45") = (⟨45000000000⟩, none) :=
  ⟨rfl, rfl, rfl, rfl⟩

/-- C1 counterexample: `"garbage"` fails all four cascade steps, yet a
`Duration` holding 5 s beforehand does not keep its previous value — the
failed first `time.ParseDuration` already overwrote it with 0 through the
multiple assignment, so the claim "the previous value is unchanged" is
false. -/
theorem c1_counterexample :
    goParseDuration (goTrim (strChars "garbage") [squote]) = none ∧
    goUnquote (goTrim (strChars "garbage") [squote]) = none ∧
    goParseInt (goTrim (strChars "garbage") [squote]) = none ∧
    goParseFloat (goTrim (strChars "garbage") [squote]) = none ∧
    Duration.unmarshalTOML ⟨5000000000⟩ (strChars "garbage") = (⟨0⟩, none) ∧
    Duration.mk 0 ≠ Duration.mk 5000000000 := by
  refine ⟨rfl, rfl, rfl, rfl, rfl, by decide⟩

/-- C1 amended: when every cascade step fails (the trimmed bytes are not a
duration literal, unquoting does not lead to a duration literal, and the
bytes are neither a base-10 integer nor a base-10 float), `UnmarshalTOML`
returns no error but sets the duration to zero — the zero result of the
failed first parse — rather than leaving the previous value. -/
theorem c1_amended (d : Duration) (b : List Char)
    (h1 : goParseDuration (goTrim b [squote]) = none)
    (h2 : ∀ uq, goUnquote (goTrim b [squote]) = some uq → 0 < uq.length →
      goParseDuration uq = none)
    (h3 : goParseInt (goTrim b [squote]) = none)
    (h4 : goParseFloat (goTrim b [squote]) = none) :
    Duration.unmarshalTOML d b = (⟨0⟩, none) := by
  unfold Duration.unmarshalTOML
  dsimp only
  rw [h1]
  dsimp only
  rw [h3]
  dsimp only
  rw [h4]
  dsimp only
  cases hu : goUnquote (goTrim b [squote]) with
  | none => rfl
  | some uq =>
    dsimp only
    by_cases hl : 0 < uq.length
    · rw [if_pos hl, h2 uq hu hl]
    · rw [if_neg hl]

/-- C1 amended witness: the all-fail path at `"garbage"` with previous
value 5 s. -/
theorem c1_amended_witness :
    Duration.unmarshalTOML ⟨5000000000⟩ (strChars "garbage") = (⟨0⟩, none) := by
  have hu : goUnquote (goTrim (strChars "garbage") [squote]) = none := rfl
  exact c1_amended ⟨5000000000⟩ (strChars "garbage") rfl
    (fun uq h _ => by rw [hu] at h; cases h) rfl rfl


set_option maxRecDepth 40000 in
/-- C2 counterexample: `"2.5"` reaches the float fallback, but the
duration becomes 2 000 000 000 ns (2 s), not the claimed exact
2.5 s = 2 500 000 000 ns: `time.Second * time.Duration(sF)` converts the
float to a whole number *before* scaling by a second, discarding the
fraction. -/
theorem c2_counterexample :
    Duration.unmarshalTOML ⟨0⟩ (strChars "2.5") = (⟨2000000000⟩, none) ∧
    (2000000000 : Int) ≠ 2500000000 := by
  exact ⟨by decide, by decide⟩

set_option maxRecDepth 40000 in
/-- C2 amended: `"2.5"` fails the duration-literal, unquote and integer
steps and parses as the exact float 5/2, and `UnmarshalTOML` returns no
error with a duration of exactly 2 whole seconds: the parsed float is
truncated toward zero to a whole count of seconds, not to the duration
type's sub-second (nanosecond) resolution. -/
theorem c2_amended (d : Duration) :
    goParseDuration (strChars "2.5") = none ∧
    goUnquote (strChars "2.5") = none ∧
    goParseInt (strChars "2.5") = none ∧
    goParseFloat (strChars "2.5") = some (.finite (Rat.divInt 5 2)) ∧
    Duration.unmarshalTOML d (strChars "2.5") = (⟨2000000000⟩, none) := by
  refine ⟨by decide, by decide, by decide, by decide, ?_⟩
  have h : Duration.unmarshalTOML ⟨0⟩ (strChars "2.5") = (⟨2000000000⟩, none) := by
    decide
  cases d
  exact h

/-- C4 counterexample: with declared type exactly `"string"`, the input
`"  \x00"` does *not* yield an empty metric sequence: the token-splitting
block (and with it the empty-input early return) is guarded by
`DataType != "string"`, so the parser falls through and builds one metric
whose `value` field is the empty string. -/
theorem c4_counterexample :
    ValueParser.Parse ⟨strChars "test", strChars "string", []⟩ 0 (strChars "  \x00")
      = .ok [⟨strChars "test", [], [(strChars "value", .str [])], 0⟩] ∧
    (Except.ok [(⟨strChars "test", [], [(strChars "value", GoValue.str [])], 0⟩ : Metric)]
      : Except (List Char) (List Metric)) ≠ .ok [] := by
  exact ⟨by decide, by decide⟩

/-- C4 amended: for every declared data type other than exactly
`"string"` and every buffer that the two-stage trim (trailing/leading NUL
bytes, then whitespace) reduces to nothing — such as `"  \x00"` —
`ValueParser.Parse` returns an empty metric sequence and a nil error.
(For type `"string"` the same input instead yields one metric carrying
the empty string, and a buffer with an interior NUL flanked by
whitespace survives the trim and is handed to the converter.) -/
theorem c4_amended (name dtype : List Char) (tags : List (List Char × List Char))
    (now : Int) (buf : List Char)
    (hty : dtype ≠ strChars "string")
    (htrim : goTrimSpace (goTrim buf [nulChar]) = []) :
    ValueParser.Parse ⟨name, dtype, tags⟩ now buf = .ok [] := by
  unfold ValueParser.Parse
  dsimp only
  rw [htrim]
  rw [if_pos hty]
  rfl

/-- C4 amended witness: integer type on the spec's example buffer. -/
theorem c4_amended_witness :
    ValueParser.Parse ⟨strChars "test", strChars "int", []⟩ 0 (strChars "  \x00")
      = .ok [] :=
  c4_amended (strChars "test") (strChars "int") [] 0 (strChars "  \x00")
    (by decide) (by decide)

/-- C9: for a declared data type outside the recognized set and any buffer
that still holds a token after trimming and splitting, `Parse` performs no
conversion and reports no conversion error — the `switch` has no
`default` branch, so the metric's `value` field is built from the `nil`
interface value. -/
theorem c9_unrecognized_type (name dtype : List Char)
    (tags : List (List Char × List Char)) (now : Int) (buf : List Char)
    (hty : dtype ∉ [strChars "", strChars "int", strChars "integer",
      strChars "float", strChars "long", strChars "str", strChars "string",
      strChars "bool", strChars "boolean"])
    (htok : goFields (goTrimSpace (goTrim buf [nulChar])) ≠ []) :
    ValueParser.Parse ⟨name, dtype, tags⟩ now buf
      = .ok [⟨name, tags, [(strChars "value", GoValue.nil)], now⟩] := by
  simp only [List.mem_cons, List.mem_singleton, not_or] at hty
  obtain ⟨he, hint, hinteger, hfloat, hlong, hstr, hstring, hbool, hboolean⟩ := hty
  unfold ValueParser.Parse
  dsimp only
  rw [if_pos hstring]
  cases hl : (goFields (goTrimSpace (goTrim buf [nulChar]))).getLast? with
  | none =>
    exact absurd (List.getLast?_eq_none_iff.mp hl) htok
  | some last =>
    dsimp only
    unfold convertToken
    rw [if_neg (by simp [he, hint, hinteger]), if_neg (by simp [hfloat, hlong]),
      if_neg (by simp [hstr, hstring]), if_neg (by simp [hbool, hboolean])]
    rfl

/-- C9 witness: type `"number"` on a buffer holding the token `42`. -/
theorem c9_unrecognized_type_witness :
    ValueParser.Parse ⟨strChars "t", strChars "number", []⟩ 0 (strChars "42")
      = .ok [⟨strChars "t", [], [(strChars "value", GoValue.nil)], 0⟩] :=
  c9_unrecognized_type (strChars "t") (strChars "number") [] 0 (strChars "42")
    (by decide) (by decide)

/-- Shared helper: a left fold of pointwise map updates looks up to the
last registration under the queried name, else to the base map. -/
theorem foldl_update_lookup {α : Type} (m : List Char → Option α)
    (regs : List (List Char × α)) (n : List Char) :
    (regs.foldl (fun acc r => fun k => if k = r.1 then some r.2 else acc k) m) n
      = ((regs.reverse.find? fun r => decide (r.1 = n)).map Prod.snd).or (m n) := by
  induction regs generalizing m with
  | nil => rfl
  | cons r rs ih =>
    rw [List.foldl_cons, ih, List.reverse_cons, List.find?_append]
    cases h : rs.reverse.find? (fun r => decide (r.1 = n)) with
    | some hit => rfl
    | none =>
      by_cases hn : r.1 = n
      · simp [List.find?, hn]
      · simp [List.find?, hn, Ne.symm hn]

/-- C6: after any sequence of `AddInput` (respectively `AddOutput`)
registrations applied to the `Inputs` (respectively `Outputs`) registry,
looking a name up finds exactly the factory of the *last* registration
made under that name (falling back to the prior contents when the name
was never registered); in particular registering twice under one name
leaves only the second factory. -/
theorem c6_registry_last_wins :
    (∀ (m : InputsMap) (regs : List (List Char × InputCreator)) (n : List Char),
      registerInputs m regs n
        = ((regs.reverse.find? fun r => decide (r.1 = n)).map Prod.snd).or (m n)) ∧
    (∀ (m : OutputsMap) (regs : List (List Char × OutputCreator)) (n : List Char),
      registerOutputs m regs n
        = ((regs.reverse.find? fun r => decide (r.1 = n)).map Prod.snd).or (m n)) ∧
    (∀ (m : InputsMap) (n : List Char) (c₁ c₂ : InputCreator),
      addInput (addInput m n c₁) n c₂ n = some c₂) ∧
    (∀ (m : OutputsMap) (n : List Char) (c₁ c₂ : OutputCreator),
      addOutput (addOutput m n c₁) n c₂ n = some c₂) := by
  refine ⟨?_, ?_, ?_, ?_⟩
  · intro m regs n
    unfold registerInputs addInput
    exact foldl_update_lookup m regs n
  · intro m regs n
    unfold registerOutputs addOutput
    exact foldl_update_lookup m regs n
  · intro m n c₁ c₂
    unfold addInput
    rw [if_pos rfl]
  · intro m n c₁ c₂
    unfold addOutput
    rw [if_pos rfl]

/-- C7 counterexample: `ListTags` sorts the *formatted* `key=value`
strings, not the keys: with keys `A` and `A0` (where `A` is a proper
prefix of `A0` and `0` precedes `=` byte-wise), the output orders `A0=y`
before `A=x`, while a key-sorted serialization (`listTagsKeySortedSpec`,
the spec's words) puts `A=x` first. -/
theorem c7_counterexample :
    listTags [(strChars "A", strChars "x"), (strChars "A0", strChars "y")]
      = strChars "A0=y A=x" ∧
    listTagsKeySortedSpec [(strChars "A", strChars "x"), (strChars "A0", strChars "y")]
      = strChars "A=x A0=y" ∧
    strChars "A0=y A=x" ≠ strChars "A=x A0=y" := by
  exact ⟨by decide, by decide, by decide⟩

/-- C7 amended: `ListTags` serializes deterministically — the output is
independent of the (arbitrary) map iteration order — as space-separated
`key=value` pairs ordered lexicographically by the *whole formatted
string*; on keys where that coincides with key order, such as the spec's
example, the result is the key-sorted listing `dc=us-east rack=1a`. -/
theorem c7_amended :
    (∀ l₁ l₂ : List (List Char × List Char), l₁.Perm l₂ →
      listTags l₁ = listTags l₂) ∧
    listTags [(strChars "dc", strChars "us-east"), (strChars "rack", strChars "1a")]
      = strChars "dc=us-east rack=1a" := by
  constructor
  · intro l₁ l₂ hp
    unfold listTags
    have hperm : ((l₁.map fun kv => kv.1 ++ strChars "=" ++ kv.2).insertionSort LexLeP).Perm
        ((l₂.map fun kv => kv.1 ++ strChars "=" ++ kv.2).insertionSort LexLeP) :=
      ((List.perm_insertionSort LexLeP _).trans
        (hp.map fun kv => kv.1 ++ strChars "=" ++ kv.2)).trans
        (List.perm_insertionSort LexLeP _).symm
    rw [List.eq_of_perm_of_sorted hperm
      (List.sorted_insertionSort LexLeP _) (List.sorted_insertionSort LexLeP _)]
  · decide

/-- C7 amended witness: the same tag map presented in two iteration
orders serializes identically, to the spec's example string. -/
theorem c7_amended_witness :
    listTags [(strChars "rack", strChars "1a"), (strChars "dc", strChars "us-east")]
      = listTags [(strChars "dc", strChars "us-east"), (strChars "rack", strChars "1a")] ∧
    listTags [(strChars "dc", strChars "us-east"), (strChars "rack", strChars "1a")]
      = strChars "dc=us-east rack=1a" :=
  ⟨c7_amended.1 _ _ (by decide), c7_amended.2⟩

/-- C8 counterexample: a regular file named exactly `".conf"` *ends* in
the `".conf"` suffix yet is never handed to the loader — the walk
function's `len(name) < 6` guard rejects it — so "exactly those whose
name ends in .conf" is false. -/
theorem c8_counterexample :
    (strChars ".conf").isSuffixOf (strChars ".conf") = true ∧
    loadDirectory (fun _ => none)
      [⟨strChars "d/.conf", some ⟨strChars ".conf", false⟩⟩] = ([], none) := by
  exact ⟨by decide, by decide⟩

/-- C8 amended: when every per-file load succeeds, `LoadDirectory` invokes
the single-file loader on exactly those stat-able, non-directory entries
whose name is at least six characters long and ends in `".conf"` (so a
bare `".conf"` is skipped), in traversal order, and skips every other
entry without error. -/
theorem c8_amended (loadErr : List Char → Option (List Char))
    (entries : List WalkEntry) (hok : ∀ p, loadErr p = none) :
    loadDirectory loadErr entries
      = ((entries.filter shouldLoad).map (fun e => e.path), none) := by
  induction entries with
  | nil => rfl
  | cons e rest ih =>
    unfold loadDirectory
    cases hi : e.info with
    | none =>
      dsimp only
      have hsl : shouldLoad e = false := by unfold shouldLoad; rw [hi]
      rw [ih, List.filter_cons, hsl]
      simp
    | some info =>
      dsimp only
      by_cases hd : info.isDir
      · rw [if_pos hd]
        have hsl : shouldLoad e = false := by
          simp [shouldLoad, hi, hd]
        rw [ih, List.filter_cons, hsl]
        simp
      · rw [if_neg hd]
        by_cases hc : confNameOK info.name = true
        · rw [if_pos hc, hok e.path]
          have hsl : shouldLoad e = true := by
            simp [shouldLoad, hi, hc, hd]
          rw [ih, List.filter_cons, hsl]
          simp
        · rw [if_neg hc]
          have hsl : shouldLoad e = false := by
            simp [shouldLoad, hi, hc]
          rw [ih, List.filter_cons, hsl]
          simp

/-- C8 amended witness: the spec's directory example — `a.conf`,
`b.conf` and `notes.txt` — loads exactly the two `.conf` files,
in traversal order. -/
theorem c8_amended_witness :
    loadDirectory (fun _ => none)
      [⟨strChars "d", some ⟨strChars "d", true⟩⟩,
       ⟨strChars "d/a.conf", some ⟨strChars "a.conf", false⟩⟩,
       ⟨strChars "d/b.conf", some ⟨strChars "b.conf", false⟩⟩,
       ⟨strChars "d/notes.txt", some ⟨strChars "notes.txt", false⟩⟩]
      = ([strChars "d/a.conf", strChars "d/b.conf"], none) :=
  (c8_amended (fun _ => none) _ (fun _ => rfl)).trans (by decide)

/-- Shared helper: every path the directory walk hands to the loader comes
from an entry of the walk that passes the `shouldLoad` filter. -/
theorem loadDirectory_mem_of (loadErr : List Char → Option (List Char))
    (entries : List WalkEntry) (p : List Char)
    (hp : p ∈ (loadDirectory loadErr entries).1) :
    ∃ e ∈ entries, e.path = p ∧ shouldLoad e = true := by
  induction entries with
  | nil => cases hp
  | cons e rest ih =>
    unfold loadDirectory at hp
    cases hi : e.info with
    | none =>
      rw [hi] at hp
      obtain ⟨e', he', hrest⟩ := ih hp
      exact ⟨e', List.mem_cons_of_mem e he', hrest⟩
    | some info =>
      rw [hi] at hp
      dsimp only at hp
      by_cases hd : info.isDir
      · rw [if_pos hd] at hp
        obtain ⟨e', he', hrest⟩ := ih hp
        exact ⟨e', List.mem_cons_of_mem e he', hrest⟩
      · rw [if_neg hd] at hp
        by_cases hc : confNameOK info.name = true
        · rw [if_pos hc] at hp
          have hsl : shouldLoad e = true := by simp [shouldLoad, hi, hd, hc]
          cases hle : loadErr e.path with
          | some err =>
            rw [hle] at hp
            rcases List.mem_singleton.mp hp with rfl
            exact ⟨e, List.mem_cons_self e rest, rfl, hsl⟩
          | none =>
            rw [hle] at hp
            rcases List.mem_cons.mp hp with rfl | hmem
            · exact ⟨e, List.mem_cons_self e rest, rfl, hsl⟩
            · obtain ⟨e', he', hrest⟩ := ih hmem
              exact ⟨e', List.mem_cons_of_mem e he', hrest⟩
        · rw [if_neg hc] at hp
          obtain ⟨e', he', hrest⟩ := ih hp
          exact ⟨e', List.mem_cons_of_mem e he', hrest⟩

/-- C10: `LoadDirectory` never loads a regular file whose name is shorter
than six characters: over any walk whose paths are distinct, the path of
such an entry is absent from the loaded list — in particular a file named
exactly `".conf"` is never loaded even though its name ends in `".conf"`. -/
theorem c10_short_names_skipped (loadErr : List Char → Option (List Char))
    (entries : List WalkEntry)
    (hnd : (entries.map (fun e => e.path)).Nodup)
    (e : WalkEntry) (he : e ∈ entries) (info : FileInfo)
    (hi : e.info = some info) (hlen : info.name.length < 6) :
    e.path ∉ (loadDirectory loadErr entries).1 := by
  intro hp
  obtain ⟨e', he', hpath, hload⟩ := loadDirectory_mem_of loadErr entries e.path hp
  have hee : e' = e := List.inj_on_of_nodup_map hnd he' he hpath
  subst hee
  have hc : confNameOK info.name = true := by
    have h := hload
    simp [shouldLoad, hi] at h
    exact h.2
  have h6 : 6 ≤ info.name.length := by
    have h := hc
    simp [confNameOK] at h
    exact h.1
  omega

/-- C10 witness: a file named exactly `".conf"` (alongside a normal
`a.conf`) ends in `".conf"` but is never loaded. -/
theorem c10_witness :
    (strChars ".conf").isSuffixOf (strChars ".conf") = true ∧
    strChars "d/.conf" ∉ (loadDirectory (fun _ => none)
      [⟨strChars "d/.conf", some ⟨strChars ".conf", false⟩⟩,
       ⟨strChars "d/a.conf", some ⟨strChars "a.conf", false⟩⟩]).1 :=
  ⟨by decide,
    c10_short_names_skipped (fun _ => none) _ (by decide)
      ⟨strChars "d/.conf", some ⟨strChars ".conf", false⟩⟩ (by decide)
      ⟨strChars ".conf", false⟩ rfl (by decide)⟩

/-- C3 counterexample: in the text `$FOOBAR $FOO` with `FOO=X` set and
`FOOBAR` unset, the replacement for the token `$FOO` is applied to the
*first occurrence of the substring* `$FOO` — inside the longer token
`$FOOBAR` — producing `XBAR $FOO`: the unset token is not left verbatim
and the occurrence of the token `$FOO` is not replaced, refuting the
claim as stated. -/
theorem c3_counterexample :
    substPhase
        (fun n => if n = strChars "FOO" then some (strChars "X") else none)
        (strChars "$FOOBAR $FOO")
      = strChars "XBAR $FOO" ∧
    strChars "XBAR $FOO" ≠ strChars "$FOOBAR X" := by
  exact ⟨by decide, by decide⟩

/-- One-step reduction: the scanner outside a token. -/
theorem scanTokens_none_cons (c : Char) (rest : List Char) :
    scanTokens none (c :: rest)
      = if c = dollar then scanTokens (some []) rest else scanTokens none rest := rfl

theorem scanTokens_some_cons (acc : List Char) (c : Char) (rest : List Char) :
    scanTokens (some acc) (c :: rest)
      = if isWordChar c then scanTokens (some (c :: acc)) rest
        else if acc = [] then scanTokens (if c = dollar then some [] else none) rest
        else (dollar :: acc.reverse) ::
          scanTokens (if c = dollar then some [] else none) rest := rfl

theorem scanTokens_some_nil (acc : List Char) :
    scanTokens (some acc) [] = if acc = [] then [] else [dollar :: acc.reverse] := rfl

theorem scanTokens_skip (sep rest : List Char) (h : dollar ∉ sep) :
    scanTokens none (sep ++ rest) = scanTokens none rest := by
  induction sep with
  | nil => rfl
  | cons c cs ih =>
    have hc : ¬(c = dollar) := fun hcd => h (hcd ▸ List.mem_cons_self c cs)
    rw [List.cons_append, scanTokens_none_cons, if_neg hc]
    exact ih (fun hm => h (List.mem_cons_of_mem c hm))

theorem scanTokens_word_run (w : List Char) (acc rest : List Char)
    (hw : ∀ c ∈ w, isWordChar c = true) :
    scanTokens (some acc) (w ++ rest) = scanTokens (some (w.reverse ++ acc)) rest := by
  induction w generalizing acc with
  | nil => simp
  | cons c cs ih =>
    rw [List.cons_append, scanTokens_some_cons,
      if_pos (hw c (List.mem_cons_self c cs)),
      ih (c :: acc) (fun x hx => hw x (List.mem_cons_of_mem c hx))]
    congr 2
    simp

theorem scanTokens_token (w rest : List Char)
    (hne : w ≠ []) (hw : ∀ c ∈ w, isWordChar c = true)
    (hrest : headIsWord rest = false) :
    scanTokens none (dollar :: (w ++ rest)) = (dollar :: w) :: scanTokens none rest := by
  rw [scanTokens_none_cons, if_pos rfl, scanTokens_word_run w [] rest hw]
  have hacc : ¬(w.reverse ++ [] = ([] : List Char)) := by simpa using hne
  cases rest with
  | nil =>
    rw [scanTokens_some_nil, if_neg hacc]
    simp [scanTokens]
  | cons c rs =>
    have hcw : isWordChar c = false := by simpa [headIsWord] using hrest
    rw [scanTokens_some_cons, if_neg (by simp [hcw]), if_neg hacc,
      scanTokens_none_cons]
    by_cases hcd : c = dollar
    · rw [if_pos hcd, if_pos hcd]
      congr 2
      simp
    · rw [if_neg hcd, if_neg hcd]
      congr 2
      simp

theorem isTokenShape_spec (t : List Char) (h : isTokenShape t = true) :
    ∃ w, t = dollar :: w ∧ w ≠ [] ∧ ∀ c ∈ w, isWordChar c = true := by
  cases t with
  | nil => cases h
  | cons c w =>
    unfold isTokenShape at h
    simp only [Bool.and_eq_true, decide_eq_true_eq, Bool.not_eq_true',
      List.isEmpty_eq_false, List.all_eq_true] at h
    obtain ⟨⟨hc, hwne⟩, hall⟩ := h
    exact ⟨w, by rw [hc], hwne, hall⟩

theorem headIsWord_append (x y : List Char) :
    headIsWord (x ++ y) = if x = [] then headIsWord y else headIsWord x := by
  cases x with
  | nil => simp
  | cons c cs => simp [headIsWord]

theorem tokens_head_not_word (parts : List (List Char × List Char))
    (htok : ∀ p ∈ parts, isTokenShape p.1 = true) :
    headIsWord (renderParts parts) = false := by
  cases parts with
  | nil => rfl
  | cons p rest =>
    obtain ⟨w, hpw, _, _⟩ :=
      isTokenShape_spec p.1 (htok p (List.mem_cons_self p rest))
    unfold renderParts
    rw [List.flatMap_cons, hpw]
    rfl

theorem findAll_render (parts : List (List Char × List Char))
    (sep0 : List Char)
    (hsep0 : dollar ∉ sep0)
    (hseps : ∀ p ∈ parts, dollar ∉ p.2)
    (htok : ∀ p ∈ parts, isTokenShape p.1 = true)
    (hmax : ∀ p ∈ parts, headIsWord p.2 = false) :
    findAllTokens (sep0 ++ renderParts parts) = parts.map (fun p => p.1) := by
  induction parts generalizing sep0 with
  | nil =>
    unfold findAllTokens renderParts
    rw [List.flatMap_nil, scanTokens_skip sep0 [] hsep0]
    rfl
  | cons p rest ih =>
    obtain ⟨w, hpw, hwne, hwall⟩ :=
      isTokenShape_spec p.1 (htok p (List.mem_cons_self p rest))
    have hsep : dollar ∉ p.2 := hseps p (List.mem_cons_self p rest)
    have hrest2 : headIsWord (p.2 ++ renderParts rest) = false := by
      rw [headIsWord_append]
      by_cases h2 : p.2 = []
      · rw [if_pos h2]
        exact tokens_head_not_word rest
          (fun q hq => htok q (List.mem_cons_of_mem p hq))
      · rw [if_neg h2]
        exact hmax p (List.mem_cons_self p rest)
    unfold findAllTokens renderParts
    rw [List.flatMap_cons, hpw]
    have hassoc : sep0 ++ ((dollar :: w) ++ p.2 ++ rest.flatMap fun q => q.1 ++ q.2)
        = sep0 ++ (dollar :: (w ++ (p.2 ++ rest.flatMap fun q => q.1 ++ q.2))) := by
      simp [List.append_assoc]
    rw [hassoc, scanTokens_skip sep0 _ hsep0,
      scanTokens_token w _ hwne hwall (by simpa [renderParts] using hrest2)]
    have ihr := ih p.2 hsep
      (fun q hq => hseps q (List.mem_cons_of_mem p hq))
      (fun q hq => htok q (List.mem_cons_of_mem p hq))
      (fun q hq => hmax q (List.mem_cons_of_mem p hq))
    unfold findAllTokens renderParts at ihr
    rw [ihr, List.map_cons, hpw]

theorem replaceFirst_at (P t Q new : List Char) (hne : t ≠ [])
    (hno : noTokenStartIn P t (t ++ Q) = true) :
    replaceFirst (P ++ t ++ Q) t new = P ++ new ++ Q := by
  induction P with
  | nil =>
    cases t with
    | nil => exact absurd rfl hne
    | cons a t' =>
      rw [List.nil_append, List.nil_append, List.cons_append]
      unfold replaceFirst
      rw [if_pos (by
        rw [List.isPrefixOf_iff_prefix, ← List.cons_append]
        exact List.prefix_append (a :: t') Q)]
      rw [← List.cons_append, List.drop_left]
  | cons c P' ih =>
    unfold noTokenStartIn at hno
    simp only [Bool.and_eq_true, Bool.not_eq_true'] at hno
    obtain ⟨hp, hrest⟩ := hno
    have hlist : (c :: P') ++ t ++ Q = c :: (P' ++ (t ++ Q)) := by
      simp [List.append_assoc]
    rw [hlist]
    unfold replaceFirst
    rw [if_neg (by simp [hp])]
    have h2 : P' ++ (t ++ Q) = P' ++ t ++ Q := (List.append_assoc P' t Q).symm
    rw [h2, ih hrest]
    simp [List.append_assoc]

theorem noTokenStartIn_cons (c : Char) (P pat tail : List Char) :
    noTokenStartIn (c :: P) pat tail
      = (!(pat.isPrefixOf (c :: (P ++ tail))) && noTokenStartIn P pat tail) := rfl

theorem noTokenStartIn_append (X Y pat tail : List Char) :
    noTokenStartIn (X ++ Y) pat tail
      = (noTokenStartIn X pat (Y ++ tail) && noTokenStartIn Y pat tail) := by
  induction X with
  | nil => rfl
  | cons c X' ih =>
    rw [List.cons_append, noTokenStartIn_cons, noTokenStartIn_cons, ih,
      List.append_assoc, Bool.and_assoc]

theorem noTokenStartIn_of_no_dollar (X pat tail : List Char)
    (hpat : ∃ w, pat = dollar :: w) (hX : dollar ∉ X) :
    noTokenStartIn X pat tail = true := by
  obtain ⟨w, rfl⟩ := hpat
  induction X with
  | nil => rfl
  | cons c X' ih =>
    rw [noTokenStartIn_cons]
    have hc : c ≠ dollar := fun h => hX (h ▸ List.mem_cons_self c X')
    have hpref : (dollar :: w).isPrefixOf (c :: (X' ++ tail)) = false := by
      cases hip : (dollar :: w).isPrefixOf (c :: (X' ++ tail)) with
      | false => rfl
      | true =>
        rw [List.isPrefixOf_iff_prefix] at hip
        obtain ⟨r, hr⟩ := hip
        rw [List.cons_append] at hr
        injection hr with h1 _
        exact absurd h1.symm hc
    rw [hpref]
    simp only [Bool.not_false, Bool.true_and]
    exact ih (fun h => hX (List.mem_cons_of_mem c h))

theorem isPrefixOf_append_eq_false (a b tail : List Char)
    (hab : ¬ a <+: b) (hba : ¬ b <+: a) :
    a.isPrefixOf (b ++ tail) = false := by
  cases hip : a.isPrefixOf (b ++ tail) with
  | false => rfl
  | true =>
    rw [List.isPrefixOf_iff_prefix] at hip
    rcases Nat.le_total a.length b.length with hl | hl
    · exact absurd (List.prefix_of_prefix_length_le hip
        (List.prefix_append b tail) hl) hab
    · exact absurd (List.prefix_of_prefix_length_le
        (List.prefix_append b tail) hip hl) hba

theorem noTokenStartIn_kept_token (tk pat tail : List Char)
    (htk : isTokenShape tk = true)
    (hpat : ∃ w, pat = dollar :: w)
    (hab : ¬ pat <+: tk) (hba : ¬ tk <+: pat) :
    noTokenStartIn tk pat tail = true := by
  obtain ⟨wk, hktok, _, hkall⟩ := isTokenShape_spec tk htk
  subst hktok
  rw [noTokenStartIn_cons, ← List.cons_append,
    isPrefixOf_append_eq_false pat (dollar :: wk) tail hab hba]
  simp only [Bool.not_false, Bool.true_and]
  refine noTokenStartIn_of_no_dollar wk pat tail hpat ?_
  intro hmem
  have := hkall dollar hmem
  simp [isWordChar, dollar] at this

theorem escapeEnv_no_dollar (v : List Char) (hv : dollar ∉ v) :
    dollar ∉ escapeEnv v := by
  intro hmem
  unfold escapeEnv at hmem
  rw [List.mem_flatMap] at hmem
  obtain ⟨c, hc, hin⟩ := hmem
  unfold escapeChar at hin
  by_cases h1 : c = dquote
  · rw [if_pos h1] at hin
    simp [dollar, bslash, dquote, Char.ofNat] at hin
  · rw [if_neg h1] at hin
    by_cases h2 : c = bslash
    · rw [if_pos h2] at hin
      simp [dollar, bslash, Char.ofNat] at hin
    · rw [if_neg h2] at hin
      rcases List.mem_singleton.mp hin with rfl
      exact hv hc

theorem noTokenStartIn_renderResolved (env : List Char → Option (List Char))
    (pat : List Char) (hpat : ∃ w, pat = dollar :: w)
    (done : List (List Char × List Char)) (tail : List Char)
    (hseps : ∀ p ∈ done, dollar ∉ p.2)
    (htok : ∀ p ∈ done, isTokenShape p.1 = true)
    (hval : ∀ p ∈ done, ∀ v, env (trimDollar p.1) = some v → dollar ∉ v)
    (hkept : ∀ p ∈ done, env (trimDollar p.1) = none →
      ¬ pat <+: p.1 ∧ ¬ p.1 <+: pat) :
    noTokenStartIn (renderResolved env done) pat tail = true := by
  induction done with
  | nil => rfl
  | cons p rest ih =>
    unfold renderResolved
    rw [List.flatMap_cons, noTokenStartIn_append, noTokenStartIn_append]
    have hmem := List.mem_cons_self p rest
    have h1 : noTokenStartIn (resolveTok env p.1) pat
        (p.2 ++ ((rest.flatMap fun q => resolveTok env q.1 ++ q.2) ++ tail)) = true := by
      unfold resolveTok
      cases henv : env (trimDollar p.1) with
      | some v =>
        exact noTokenStartIn_of_no_dollar _ pat _ hpat
          (escapeEnv_no_dollar v (hval p hmem v henv))
      | none =>
        obtain ⟨h2, h3⟩ := hkept p hmem henv
        exact noTokenStartIn_kept_token p.1 pat _ (htok p hmem) hpat h2 h3
    have h2 : noTokenStartIn p.2 pat
        ((rest.flatMap fun q => resolveTok env q.1 ++ q.2) ++ tail) = true := by
      exact noTokenStartIn_of_no_dollar _ pat _ hpat (hseps p hmem)
    have h3 := ih (fun q hq => hseps q (List.mem_cons_of_mem p hq))
      (fun q hq => htok q (List.mem_cons_of_mem p hq))
      (fun q hq => hval q (List.mem_cons_of_mem p hq))
      (fun q hq => hkept q (List.mem_cons_of_mem p hq))
    unfold renderResolved at h3
    rw [h1, h2, h3]
    rfl

theorem substSteps_render (env : List Char → Option (List Char)) (sep0 : List Char)
    (L : List (List Char × List Char))
    (hsep0 : dollar ∉ sep0)
    (hseps : ∀ p ∈ L, dollar ∉ p.2)
    (htok : ∀ p ∈ L, isTokenShape p.1 = true)
    (hval : ∀ p ∈ L, ∀ v, env (trimDollar p.1) = some v → dollar ∉ v)
    (hpfx : ∀ p ∈ L, ∀ q ∈ L, p.1 ≠ q.1 → ¬ p.1 <+: q.1) :
    ∀ (parts done : List (List Char × List Char)), L = done ++ parts →
    (parts.map (fun p => p.1)).foldl (substStep env)
        (sep0 ++ (renderResolved env done ++ renderParts parts))
      = sep0 ++ (renderResolved env done ++ renderResolved env parts) := by
  intro parts
  induction parts with
  | nil =>
    intro done hL
    simp [renderParts, renderResolved]
  | cons p rest ih =>
    intro done hL
    have hpL : p ∈ L := by rw [hL]; exact List.mem_append_right done (List.mem_cons_self p rest)
    have hdoneL : ∀ q ∈ done, q ∈ L := by
      intro q hq
      rw [hL]
      exact List.mem_append_left _ hq
    obtain ⟨w, hpw, hwne, hwall⟩ := isTokenShape_spec p.1 (htok p hpL)
    have hL' : L = (done ++ [p]) ++ rest := by
      rw [hL, List.append_assoc, List.singleton_append]
    have hRdone1 : renderResolved env (done ++ [p])
        = renderResolved env done ++ (resolveTok env p.1 ++ p.2) := by
      unfold renderResolved
      rw [List.flatMap_append, List.flatMap_cons, List.flatMap_nil, List.append_nil]
    rw [List.map_cons, List.foldl_cons]
    cases henv : env (trimDollar p.1) with
    | none =>
      have hstep : substStep env (sep0 ++ (renderResolved env done ++ renderParts (p :: rest))) p.1
          = sep0 ++ (renderResolved env done ++ renderParts (p :: rest)) := by
        unfold substStep
        rw [henv]
      rw [hstep]
      have hres : resolveTok env p.1 = p.1 := by unfold resolveTok; rw [henv]
      have hrp : renderParts (p :: rest)
          = (resolveTok env p.1 ++ p.2) ++ renderParts rest := by
        unfold renderParts
        rw [List.flatMap_cons, hres]
      have goal1 := ih (done ++ [p]) hL'
      rw [hRdone1] at goal1
      rw [hrp]
      calc (rest.map (fun p => p.1)).foldl (substStep env)
            (sep0 ++ (renderResolved env done ++ ((resolveTok env p.1 ++ p.2) ++ renderParts rest)))
          = (rest.map (fun p => p.1)).foldl (substStep env)
            (sep0 ++ ((renderResolved env done ++ (resolveTok env p.1 ++ p.2)) ++ renderParts rest)) := by
            simp only [List.append_assoc]
        _ = sep0 ++ ((renderResolved env done ++ (resolveTok env p.1 ++ p.2)) ++ renderResolved env rest) := goal1
        _ = sep0 ++ (renderResolved env done ++ renderResolved env (p :: rest)) := by
            unfold renderResolved
            rw [List.flatMap_cons]
            simp [List.append_assoc, hres]
    | some v =>
      have htne : p.1 ≠ [] := by rw [hpw]; simp
      have hno : noTokenStartIn (sep0 ++ renderResolved env done) p.1
          (p.1 ++ (p.2 ++ renderParts rest)) = true := by
        rw [noTokenStartIn_append]
        have hA : noTokenStartIn sep0 p.1
            (renderResolved env done ++ (p.1 ++ (p.2 ++ renderParts rest))) = true :=
          noTokenStartIn_of_no_dollar sep0 p.1 _ ⟨w, hpw⟩ hsep0
        have hB : noTokenStartIn (renderResolved env done) p.1
            (p.1 ++ (p.2 ++ renderParts rest)) = true := by
          refine noTokenStartIn_renderResolved env p.1 ⟨w, hpw⟩ done _
            (fun q hq => hseps q (hdoneL q hq))
            (fun q hq => htok q (hdoneL q hq))
            (fun q hq => hval q (hdoneL q hq))
            (fun q hq hqnone => ?_)
          have hne : p.1 ≠ q.1 := by
            intro he
            rw [he, hqnone] at henv
            cases henv
          exact ⟨hpfx p hpL q (hdoneL q hq) hne,
            hpfx q (hdoneL q hq) p hpL (Ne.symm hne)⟩
        rw [hA, hB]
        rfl
      have hrepl := replaceFirst_at (sep0 ++ renderResolved env done) p.1
        (p.2 ++ renderParts rest) (escapeEnv v) htne hno
      have hstep : substStep env (sep0 ++ (renderResolved env done ++ renderParts (p :: rest))) p.1
          = sep0 ++ (renderResolved env done ++ ((escapeEnv v ++ p.2) ++ renderParts rest)) := by
        unfold substStep
        rw [henv]
        dsimp only
        have hacc : sep0 ++ (renderResolved env done ++ renderParts (p :: rest))
            = sep0 ++ renderResolved env done ++ p.1 ++ (p.2 ++ renderParts rest) := by
          unfold renderParts
          rw [List.flatMap_cons]
          simp [List.append_assoc]
        rw [hacc, hrepl]
        simp [List.append_assoc]
      rw [hstep]
      have hres : resolveTok env p.1 = escapeEnv v := by unfold resolveTok; rw [henv]
      have goal1 := ih (done ++ [p]) hL'
      rw [hRdone1] at goal1
      calc (rest.map (fun p => p.1)).foldl (substStep env)
            (sep0 ++ (renderResolved env done ++ ((escapeEnv v ++ p.2) ++ renderParts rest)))
          = (rest.map (fun p => p.1)).foldl (substStep env)
            (sep0 ++ ((renderResolved env done ++ (resolveTok env p.1 ++ p.2)) ++ renderParts rest)) := by
            rw [hres]
            simp [List.append_assoc]
        _ = sep0 ++ ((renderResolved env done ++ (resolveTok env p.1 ++ p.2)) ++ renderResolved env rest) := goal1
        _ = sep0 ++ (renderResolved env done ++ renderResolved env (p :: rest)) := by
            unfold renderResolved
            rw [List.flatMap_cons]
            simp [List.append_assoc]

/-- C3 amended: restricted to texts where the `$`-tokens are maximal and
isolated — the text decomposes as `sep0 ++ tok1 ++ sep1 ++ ...` with no
dollar sign inside a separator, each token a dollar sign followed by a
non-empty run of word characters, no separator starting with a word
character (maximality), the value of every set variable free of dollar
signs, and no two distinct tokens of the text one a prefix of the other —
the substitution phase of `parseFile` replaces *every* occurrence of each
set token by its escaped value and leaves every unset token verbatim,
with no error.  The prefix condition is what the counterexample
(`$FOOBAR` vs `$FOO`) forces; the isolation conditions exclude the same
first-occurrence mis-targeting arising through dollars in separators or
in substituted values. -/
theorem c3_amended (env : List Char → Option (List Char))
    (sep0 : List Char) (parts : List (List Char × List Char))
    (hsep0 : dollar ∉ sep0)
    (hseps : ∀ p ∈ parts, dollar ∉ p.2)
    (htok : ∀ p ∈ parts, isTokenShape p.1 = true)
    (hmax : ∀ p ∈ parts, headIsWord p.2 = false)
    (hval : ∀ p ∈ parts,
      (env (trimDollar p.1)).all (fun v => decide (dollar ∉ v)) = true)
    (hpfx : ∀ p ∈ parts, ∀ q ∈ parts, p.1 ≠ q.1 → ¬ p.1 <+: q.1) :
    substPhase env (sep0 ++ renderParts parts)
      = sep0 ++ renderResolved env parts := by
  unfold substPhase
  rw [findAll_render parts sep0 hsep0 hseps htok hmax]
  have hval' : ∀ p ∈ parts, ∀ v, env (trimDollar p.1) = some v → dollar ∉ v := by
    intro p hp v hv
    have h := hval p hp
    rw [hv] at h
    exact of_decide_eq_true h
  have h := substSteps_render env sep0 parts hsep0 hseps htok hval' hpfx parts [] rfl
  have h0 : renderResolved env [] = [] := rfl
  rw [h0, List.nil_append, List.nil_append] at h
  exact h

/-- C3 amended witness: a two-variable config fragment with `FOO=hi` set
and `BAR` unset. -/
theorem c3_amended_witness :
    substPhase (fun n => if n = strChars "FOO" then some (strChars "hi") else none)
        (strChars "x = \"$FOO\"\ny = \"$BAR\"")
      = strChars "x = \"hi\"\ny = \"$BAR\"" := by
  have h := c3_amended
    (fun n => if n = strChars "FOO" then some (strChars "hi") else none)
    (strChars "x = \"")
    [(strChars "$FOO", strChars "\"\ny = \""), (strChars "$BAR", strChars "\"")]
    (by decide) (by decide) (by decide) (by decide) (by decide) (by decide)
  have e1 : strChars "x = \"" ++ renderParts
      [(strChars "$FOO", strChars "\"\ny = \""), (strChars "$BAR", strChars "\"")]
      = strChars "x = \"$FOO\"\ny = \"$BAR\"" := by decide
  have e2 : strChars "x = \"" ++ renderResolved
      (fun n => if n = strChars "FOO" then some (strChars "hi") else none)
      [(strChars "$FOO", strChars "\"\ny = \""), (strChars "$BAR", strChars "\"")]
      = strChars "x = \"hi\"\ny = \"$BAR\"" := by decide
  rw [e1, e2] at h
  exact h
